import Mathlib

set_option maxHeartbeats 1000000
set_option maxRecDepth 4000

/-! Verification development for the strato-trade options-arbitrage core.

The LP-construction layer embeds src/strato-model/src/mft/stochastic_arbitrage.rs.
Scalars are modelled as exact rationals (every finite f64 value is a rational;
the claims about the linear program are about its algebraic structure, not
about rounding).  The good_lp backend is modelled as an explicit solver
function parameter, and Rust's unwrap-on-Err is modelled by the `panicked`
outcome of `RunResult`.  Out-of-bounds list indexing (which panics in Rust)
is modelled by threading `Option` through the construction: a `none` build
aborts the run as `panicked`.

The pricing layer embeds src/strato-model/src/pricing/bs.rs over an IEEE-754
style extended value type `FVal` (exact real payloads plus infinities and
NaN), so that an unguarded 0/0 in d1 is represented faithfully. -/

/-- Decision variables created by initialize_weights: for instrument i the
net position w_i, the long part w_i^+ and the short part w_i^-. -/
inductive Var where
  | net : ℕ → Var
  | long : ℕ → Var
  | short : ℕ → Var
deriving DecidableEq, Repr

/-- Affine expression over the decision variables, mirroring good_lp's
Expression: a list of linear terms plus a constant. -/
structure AffExpr where
  terms : List (ℚ × Var)
  const : ℚ
deriving DecidableEq, Repr

def AffExpr.ofConst (c : ℚ) : AffExpr := ⟨[], c⟩

def AffExpr.ofVar (v : Var) : AffExpr := ⟨[(1, v)], 0⟩

def AffExpr.add (a b : AffExpr) : AffExpr := ⟨a.terms ++ b.terms, a.const + b.const⟩

/-- Scalar multiplication, mirroring good_lp's Expression * f64. -/
def AffExpr.smul (c : ℚ) (a : AffExpr) : AffExpr :=
  ⟨a.terms.map (fun t => (c * t.1, t.2)), c * a.const⟩

def AffExpr.neg (a : AffExpr) : AffExpr := AffExpr.smul (-1) a

def AffExpr.sub (a b : AffExpr) : AffExpr := a.add b.neg

/-- Value of an affine expression at an assignment of the variables. -/
def AffExpr.eval (σ : Var → ℚ) (a : AffExpr) : ℚ :=
  (a.terms.map (fun t => t.1 * σ t.2)).sum + a.const

/-- A constraint of the linear program.  The constraints the source builds
compare an expression with a constant, except the long/short equality
constraints which compare two expressions. -/
inductive Constr where
  | le : AffExpr → ℚ → Constr
  | ge : AffExpr → ℚ → Constr
  | eq : AffExpr → AffExpr → Constr
deriving DecidableEq, Repr

/-- Satisfaction of a constraint by an assignment. -/
def Constr.holds (σ : Var → ℚ) : Constr → Bool
  | .le l r => decide (l.eval σ ≤ r)
  | .ge l r => decide (r ≤ l.eval σ)
  | .eq l r => decide (l.eval σ = r.eval σ)

/-- An assignment satisfies a whole list of constraints. -/
def satAll (σ : Var → ℚ) (cs : List Constr) : Bool := cs.all (Constr.holds σ)

/-- A declared variable with its bounds (variable().bounds(lo..hi)). -/
structure VarDecl where
  v : Var
  lo : ℚ
  hi : ℚ
deriving DecidableEq, Repr

/-- The result of initialize_weights: declared variables, the three handle
vectors, and the equality constraints w = w_p - w_m. -/
structure InitVars where
  decls : List VarDecl
  weights : List Var
  wPlus : List Var
  wMinus : List Var
  eqConstraints : List Constr
deriving DecidableEq, Repr

/-- Loop body of initialize_weights: one iteration per element of the
(truncated) liquidity list, carrying the running instrument index. -/
def initWeightsAux : ℕ → List ℚ → InitVars
  | _, [] => ⟨[], [], [], [], []⟩
  | i, l :: ls =>
    let rest := initWeightsAux (i + 1) ls
    ⟨⟨Var.net i, -l, l⟩ :: ⟨Var.long i, 0, l⟩ :: ⟨Var.short i, 0, l⟩ :: rest.decls,
     Var.net i :: rest.weights,
     Var.long i :: rest.wPlus,
     Var.short i :: rest.wMinus,
     Constr.eq (AffExpr.ofVar (Var.net i))
       ((AffExpr.ofVar (Var.long i)).sub (AffExpr.ofVar (Var.short i))) :: rest.eqConstraints⟩

/-- initialize_weights: iterates over liquidity.iter().take(num_assets),
creating w (bounds -l..l), w_p (0..l), w_m (0..l) and the constraint
w == w_p - w_m for each instrument. -/
def initWeights (numAssets : ℕ) (liquidity : List ℚ) : InitVars :=
  initWeightsAux 0 (liquidity.take numAssets)

/-- Option-valued map: a loop that indexes into lists and panics (returns
none) when an index is out of bounds, as Rust slice indexing does. -/
def optMap {α β : Type} (f : α → Option β) : List α → Option (List β)
  | [] => some []
  | a :: rest => do
    let b ← f a
    let bs ← optMap f rest
    pure (b :: bs)

/-- The option record of the source (struct OptionData).  Numeric fields are
modelled as exact rationals. -/
structure OptionData where
  name : String
  s : ℚ
  k : ℚ
  t : ℚ
  r : ℚ
  sigma : ℚ
  optionType : String
  marketPrice : ℚ
deriving DecidableEq, Repr

/-- compute_theoretical_prices as seen by the LP layer: maps each option to
its Black-Scholes price, dispatching on option_type == "call".  The two f64
pricing functions are abstracted as scalar-valued parameters; the LP layer
only ever treats the resulting prices as opaque coefficients. -/
def computeTheoreticalPricesLP (callP putP : ℚ → ℚ → ℚ → ℚ → ℚ → ℚ)
    (optionData : List OptionData) : List ℚ :=
  optionData.map (fun o =>
    if o.optionType = "call" then callP o.s o.k o.t o.r o.sigma
    else putP o.s o.k o.t o.r o.sigma)

/-- Loop body of build_objective: for the i-th weight, the term
(theoretical_price[i] - market_price[i] - transaction_cost[i]) * w. -/
def objTermsAux (marketPrices theoreticalPrices transactionCosts : List ℚ) :
    ℕ → List Var → Option (List AffExpr)
  | _, [] => some []
  | i, w :: ws => do
    let th ← theoreticalPrices[i]?
    let mp ← marketPrices[i]?
    let tc ← transactionCosts[i]?
    let rest ← objTermsAux marketPrices theoreticalPrices transactionCosts (i + 1) ws
    pure (AffExpr.smul (th - mp - tc) (AffExpr.ofVar w) :: rest)

/-- build_objective: sum over enumerated weights of profit_per_unit * w. -/
def build_objective (weights : List Var)
    (marketPrices theoreticalPrices transactionCosts : List ℚ) : Option AffExpr :=
  (objTermsAux marketPrices theoreticalPrices transactionCosts 0 weights).map
    (fun es => es.foldl AffExpr.add (AffExpr.ofConst 0))

/-- Loop body shared by the two sums of compute_total_capital_constraint:
for the i-th handle, the term w * (market_price[i] + transaction_cost[i]). -/
def capTermsAux (marketPrices transactionCosts : List ℚ) :
    ℕ → List Var → Option (List AffExpr)
  | _, [] => some []
  | i, w :: ws => do
    let mp ← marketPrices[i]?
    let tc ← transactionCosts[i]?
    let rest ← capTermsAux marketPrices transactionCosts (i + 1) ws
    pure (AffExpr.smul (mp + tc) (AffExpr.ofVar w) :: rest)

/-- compute_total_capital_constraint: the expression
sum_i w_i^+ * (P_i + C_i) + sum_i w_i^- * (P_i + C_i). -/
def compute_total_capital_constraint (wPlus wMinus : List Var)
    (marketPrices transactionCosts : List ℚ) : Option AffExpr := do
  let a ← capTermsAux marketPrices transactionCosts 0 wPlus
  let b ← capTermsAux marketPrices transactionCosts 0 wMinus
  pure ((a.foldl AffExpr.add (AffExpr.ofConst 0)).add
        (b.foldl AffExpr.add (AffExpr.ofConst 0)))

/-- Loop body of add_liquidity_constraints over zipped (w_p, w_m) pairs:
w_p <= liquidity[i] and w_m <= liquidity[i]. -/
def liqConstraintsAux (liquidity : List ℚ) : ℕ → List (Var × Var) → Option (List Constr)
  | _, [] => some []
  | i, p :: ps => do
    let l ← liquidity[i]?
    let rest ← liqConstraintsAux liquidity (i + 1) ps
    pure (Constr.le (AffExpr.ofVar p.1) l :: Constr.le (AffExpr.ofVar p.2) l :: rest)

/-- add_liquidity_constraints: for each instrument, w_p <= L_i, w_m <= L_i. -/
def add_liquidity_constraints (wPlus wMinus : List Var) (liquidity : List ℚ) :
    Option (List Constr) :=
  liqConstraintsAux liquidity 0 (wPlus.zip wMinus)

/-- Inner loop of the portfolio-return construction in find_arbitrage:
starting from Expression::from(0.0), adds w * option_return for every
enumerated weight. -/
def portfolioReturnAux (theoreticalPrices marketPrices transactionCosts : List ℚ) :
    ℕ → List Var → AffExpr → Option AffExpr
  | _, [], acc => some acc
  | i, w :: ws, acc => do
    let th ← theoreticalPrices[i]?
    let mp ← marketPrices[i]?
    let tc ← transactionCosts[i]?
    portfolioReturnAux theoreticalPrices marketPrices transactionCosts (i + 1) ws
      (acc.add (AffExpr.smul (th - mp - tc) (AffExpr.ofVar w)))

/-- The vector portfolio_returns of find_arbitrage: one expression per state,
each built by the same inner loop over the weights (the source's loop body
does not depend on the state index). -/
def portfolio_returns (numStates : ℕ) (weights : List Var)
    (theoreticalPrices marketPrices transactionCosts : List ℚ) :
    Option (List AffExpr) :=
  optMap
    (fun _ => portfolioReturnAux theoreticalPrices marketPrices transactionCosts 0 weights
      (AffExpr.ofConst 0))
    (List.range numStates)

/-- add_stochastic_dominance_constraints: for every risk_level (outer loop)
and every state s in 0..portfolio_returns.len() (inner loop), the constraint
portfolio_returns[s] * risk_level >= index_returns[s] * risk_level. -/
def add_stochastic_dominance_constraints (portfolioReturns : List AffExpr)
    (indexReturns riskLevels : List ℚ) : Option (List Constr) :=
  (optMap (fun rl =>
      optMap (fun s => do
          let pr ← portfolioReturns[s]?
          let ir ← indexReturns[s]?
          pure (Constr.ge (AffExpr.smul rl pr) (ir * rl)))
        (List.range portfolioReturns.length))
    riskLevels).map List.flatten

/-- Loop body of the position-limit constraints of find_arbitrage:
investment_in_option = w * (market_price[i] + transaction_cost[i]) with
investment <= max and investment >= -max. -/
def posLimitAux (marketPrices transactionCosts : List ℚ) (maxInv : ℚ) :
    ℕ → List Var → Option (List Constr)
  | _, [] => some []
  | i, w :: ws => do
    let mp ← marketPrices[i]?
    let tc ← transactionCosts[i]?
    let rest ← posLimitAux marketPrices transactionCosts maxInv (i + 1) ws
    pure (Constr.le (AffExpr.smul (mp + tc) (AffExpr.ofVar w)) maxInv ::
          Constr.ge (AffExpr.smul (mp + tc) (AffExpr.ofVar w)) (-maxInv) :: rest)

/-- The assembled linear program, with the constraint groups in the order the
source adds them: equalities, capital, liquidity, dominance, position limits. -/
structure Problem where
  decls : List VarDecl
  objective : AffExpr
  eqConstraints : List Constr
  capitalConstraint : Constr
  liquidityConstraints : List Constr
  dominanceConstraints : List Constr
  positionLimitConstraints : List Constr
deriving DecidableEq, Repr

/-- The failure cases of the LP backend (good_lp's resolution errors,
classified as in the spec's taxonomy). -/
inductive SolveFailure where
  | infeasible
  | unbounded
  | numericalFailure
deriving DecidableEq, Repr

/-- Outcome of running a Rust function that can panic. -/
inductive RunResult (α : Type) where
  | ok : α → RunResult α
  | panicked : RunResult α
deriving DecidableEq, Repr

/-- The LP that find_arbitrage assembles before calling solve, built exactly
in source order.  Returns none when a list index used by the source is out
of bounds (a Rust panic). -/
def find_arbitrage_problem (callP putP : ℚ → ℚ → ℚ → ℚ → ℚ → ℚ)
    (marketPrices transactionCosts : List ℚ) (capital : ℚ)
    (liquidity indexReturns riskLevels : List ℚ)
    (optionData : List OptionData) : Option Problem := do
  let numAssets := marketPrices.length
  let numStates := indexReturns.length
  let iv := initWeights numAssets liquidity
  let theoreticalPrices := computeTheoreticalPricesLP callP putP optionData
  let objective ← build_objective iv.weights marketPrices theoreticalPrices transactionCosts
  let capExpr ← compute_total_capital_constraint iv.wPlus iv.wMinus marketPrices transactionCosts
  let liqCs ← add_liquidity_constraints iv.wPlus iv.wMinus liquidity
  let prs ← portfolio_returns numStates iv.weights theoreticalPrices marketPrices transactionCosts
  let domCs ← add_stochastic_dominance_constraints prs indexReturns riskLevels
  let maxInv := capital / (iv.weights.length : ℚ)
  let posCs ← posLimitAux marketPrices transactionCosts maxInv 0 iv.weights
  pure ⟨iv.decls, objective, iv.eqConstraints, Constr.le capExpr capital, liqCs, domCs, posCs⟩

/-- find_arbitrage: builds the LP, calls problem.solve().unwrap() (a solver
failure or an out-of-bounds index panics the process), and on success maps
the weight handles through the solution.  The LP backend is a parameter. -/
def find_arbitrage (callP putP : ℚ → ℚ → ℚ → ℚ → ℚ → ℚ)
    (solver : Problem → Except SolveFailure (Var → ℚ))
    (marketPrices transactionCosts : List ℚ) (capital : ℚ)
    (liquidity indexReturns riskLevels : List ℚ)
    (optionData : List OptionData) : RunResult (List ℚ) :=
  match find_arbitrage_problem callP putP marketPrices transactionCosts capital
      liquidity indexReturns riskLevels optionData with
  | none => .panicked
  | some p =>
    match solver p with
    | .error _ => .panicked
    | .ok σ => .ok ((initWeights marketPrices.length liquidity).weights.map σ)

/-- The portfolio result (struct Portfolio). -/
structure Portfolio where
  holdings : List (String × ℚ)
deriving DecidableEq, Repr

/-- construct_portfolio: derives market prices from the option data, runs
find_arbitrage, and zips the option records with the resolved weights into
(name, position) holdings.  (The source also computes an expected_payoffs
vector that it never uses; it has no effect on the result.) -/
def construct_portfolio (callP putP : ℚ → ℚ → ℚ → ℚ → ℚ → ℚ)
    (solver : Problem → Except SolveFailure (Var → ℚ))
    (optionData : List OptionData) (capital : ℚ)
    (riskLevels indexReturns transactionCosts liquidity : List ℚ) :
    RunResult Portfolio :=
  let marketPrices := optionData.map (fun o => o.marketPrice)
  match find_arbitrage callP putP solver marketPrices transactionCosts capital
      liquidity indexReturns riskLevels optionData with
  | .panicked => .panicked
  | .ok ws => .ok ⟨(optionData.zip ws).map (fun p => (p.1.name, p.2))⟩

/-- A concrete option record (the in-the-money call of the spec's example
scenario), used to instantiate the general theorems. -/
def sampleOption : OptionData := ⟨"Option1", 100, 90, 1/2, 1/20, 1/5, "call", 8⟩

/-- Concrete stand-ins for the two pricing functions, used for witnesses. -/
def sampleCall : ℚ → ℚ → ℚ → ℚ → ℚ → ℚ := fun _ _ _ _ _ => 10

def samplePut : ℚ → ℚ → ℚ → ℚ → ℚ → ℚ := fun _ _ _ _ _ => 12

section PricingModel

open scoped Classical

/-- An IEEE-754-style f64 value: a finite value with an exact real payload,
a signed infinity, or NaN.  Rounding is not modelled (payloads are exact
reals); what is modelled is the special-value propagation of f64 arithmetic,
which is what the zero-volatility and validation claims are about. -/
inductive FVal where
  | finite : ℝ → FVal
  | inf : FVal
  | negInf : FVal
  | nan : FVal

noncomputable def FVal.neg : FVal → FVal
  | finite a => finite (-a)
  | inf => negInf
  | negInf => inf
  | nan => nan

noncomputable def FVal.add : FVal → FVal → FVal
  | finite a, finite b => finite (a + b)
  | finite _, inf => inf
  | finite _, negInf => negInf
  | inf, finite _ => inf
  | inf, inf => inf
  | inf, negInf => nan
  | negInf, finite _ => negInf
  | negInf, inf => nan
  | negInf, negInf => negInf
  | nan, _ => nan
  | _, nan => nan

noncomputable def FVal.sub (a b : FVal) : FVal := a.add b.neg

noncomputable def FVal.mul : FVal → FVal → FVal
  | finite a, finite b => finite (a * b)
  | finite a, inf => if a = 0 then nan else if 0 < a then inf else negInf
  | finite a, negInf => if a = 0 then nan else if 0 < a then negInf else inf
  | inf, finite b => if b = 0 then nan else if 0 < b then inf else negInf
  | negInf, finite b => if b = 0 then nan else if 0 < b then negInf else inf
  | inf, inf => inf
  | inf, negInf => negInf
  | negInf, inf => negInf
  | negInf, negInf => inf
  | nan, _ => nan
  | _, nan => nan

/-- IEEE division; 0/0 (and the other indeterminate forms) is NaN, x/0 for
x positive is +infinity, for x negative -infinity. -/
noncomputable def FVal.div : FVal → FVal → FVal
  | finite a, finite b =>
    if b = 0 then (if a = 0 then nan else if 0 < a then inf else negInf)
    else finite (a / b)
  | finite _, inf => finite 0
  | finite _, negInf => finite 0
  | inf, finite b => if 0 ≤ b then inf else negInf
  | negInf, finite b => if 0 ≤ b then negInf else inf
  | inf, inf => nan
  | inf, negInf => nan
  | negInf, inf => nan
  | negInf, negInf => nan
  | nan, _ => nan
  | _, nan => nan

/-- f64::sqrt: NaN on negative arguments. -/
noncomputable def FVal.sqrt : FVal → FVal
  | finite a => if 0 ≤ a then finite (Real.sqrt a) else nan
  | inf => inf
  | negInf => nan
  | nan => nan

/-- f64::ln: -infinity at 0, NaN on negative arguments. -/
noncomputable def FVal.ln : FVal → FVal
  | finite a => if 0 < a then finite (Real.log a) else if a = 0 then negInf else nan
  | inf => inf
  | negInf => nan
  | nan => nan

noncomputable def FVal.fexp : FVal → FVal
  | finite a => finite (Real.exp a)
  | inf => inf
  | negInf => finite 0
  | nan => nan

/-- The Gauss error function on the reals, as called from statrs. -/
noncomputable def realErf (x : ℝ) : ℝ :=
  (2 / Real.sqrt Real.pi) * ∫ t in (0:ℝ)..x, Real.exp (-t ^ 2)

/-- statrs::function::erf::erf extended to f64 special values: erf tends to
plus/minus 1 at the infinities and propagates NaN. -/
noncomputable def FVal.erf : FVal → FVal
  | finite a => finite (realErf a)
  | inf => finite 1
  | negInf => finite (-1)
  | nan => nan

/-- norm_cdf(x) = 0.5 * (1.0 + erf(x / sqrt(2.0))). -/
noncomputable def norm_cdf (x : FVal) : FVal :=
  (FVal.finite 0.5).mul ((FVal.finite 1).add ((x.div (FVal.finite (Real.sqrt 2))).erf))

/-- black_scholes_call from src/strato-model/src/pricing/bs.rs: intrinsic
value when t == 0, otherwise the d1/d2 formula with no further guards. -/
noncomputable def black_scholes_call (s k t r sigma : ℝ) : FVal :=
  if t = 0 then FVal.finite (max (s - k) 0)
  else
    let sqt := (FVal.finite t).sqrt
    let d1 := (((FVal.finite s).div (FVal.finite k)).ln.add
      (FVal.finite ((r + 0.5 * sigma ^ 2) * t))).div ((FVal.finite sigma).mul sqt)
    let d2 := d1.sub ((FVal.finite sigma).mul sqt)
    ((FVal.finite s).mul (norm_cdf d1)).sub
      (((FVal.finite k).mul (FVal.finite (Real.exp (-(r * t))))).mul (norm_cdf d2))

/-- black_scholes_put from src/strato-model/src/pricing/bs.rs. -/
noncomputable def black_scholes_put (s k t r sigma : ℝ) : FVal :=
  if t = 0 then FVal.finite (max (k - s) 0)
  else
    let sqt := (FVal.finite t).sqrt
    let d1 := (((FVal.finite s).div (FVal.finite k)).ln.add
      (FVal.finite ((r + 0.5 * sigma ^ 2) * t))).div ((FVal.finite sigma).mul sqt)
    let d2 := d1.sub ((FVal.finite sigma).mul sqt)
    (((FVal.finite k).mul (FVal.finite (Real.exp (-(r * t))))).mul (norm_cdf d2.neg)).sub
      ((FVal.finite s).mul (norm_cdf d1.neg))

/-- compute_theoretical_prices: Black-Scholes price of each option, with the
option_type == "call" dispatch.  (This is the f64-level view used by the
validation claims; the option record's rational fields are the exact values
of the f64 inputs.) -/
noncomputable def compute_theoretical_prices (optionData : List OptionData) : List FVal :=
  optionData.map (fun o =>
    if o.optionType = "call" then black_scholes_call o.s o.k o.t o.r o.sigma
    else black_scholes_put o.s o.k o.t o.r o.sigma)

/-- The f64 value a is a finite number within eps of the real x. -/
def FVal.isWithin (a : FVal) (x eps : ℝ) : Prop :=
  ∃ y, a = FVal.finite y ∧ |y - x| ≤ eps

end PricingModel

/-! Basic lemmas about affine-expression evaluation. -/

@[simp]
lemma AffExpr.eval_ofConst (c : ℚ) (σ : Var → ℚ) : (AffExpr.ofConst c).eval σ = c := by
  simp [AffExpr.eval, AffExpr.ofConst]

@[simp]
lemma AffExpr.eval_ofVar (v : Var) (σ : Var → ℚ) : (AffExpr.ofVar v).eval σ = σ v := by
  simp [AffExpr.eval, AffExpr.ofVar]

@[simp]
lemma AffExpr.eval_add (a b : AffExpr) (σ : Var → ℚ) :
    (a.add b).eval σ = a.eval σ + b.eval σ := by
  simp [AffExpr.eval, AffExpr.add]
  ring

@[simp]
lemma AffExpr.eval_smul (c : ℚ) (a : AffExpr) (σ : Var → ℚ) :
    (a.smul c).eval σ = c * a.eval σ := by
  have h : ((fun t : ℚ × Var => t.1 * σ t.2) ∘ fun t : ℚ × Var => (c * t.1, t.2)) =
      fun t : ℚ × Var => c * (t.1 * σ t.2) := by
    funext t
    simp [mul_assoc]
  simp [AffExpr.eval, AffExpr.smul, List.map_map, h, List.sum_map_mul_left, mul_add]

@[simp]
lemma AffExpr.eval_neg (a : AffExpr) (σ : Var → ℚ) : a.neg.eval σ = -a.eval σ := by
  simp [AffExpr.neg]

@[simp]
lemma AffExpr.eval_sub (a b : AffExpr) (σ : Var → ℚ) :
    (a.sub b).eval σ = a.eval σ - b.eval σ := by
  simp [AffExpr.sub]
  ring

lemma AffExpr.eval_foldl_add (es : List AffExpr) (σ : Var → ℚ) :
    ∀ acc : AffExpr, (es.foldl AffExpr.add acc).eval σ =
      acc.eval σ + (es.map (fun e => e.eval σ)).sum := by
  induction es with
  | nil => intro acc; simp
  | cons e es ih =>
    intro acc
    simp [List.foldl_cons, ih]
    ring

/-! Lemmas about the looping combinators. -/

lemma optMap_map {α β γ : Type} (f : β → Option γ) (g : α → β) (l : List α) :
    optMap f (l.map g) = optMap (fun a => f (g a)) l := by
  induction l with
  | nil => simp [optMap]
  | cons a l ih => simp [optMap, ih]

lemma optMap_const_some {α β : Type} (l : List α) (F : Option β) (e : β) (h : F = some e) :
    optMap (fun _ => F) l = some (List.replicate l.length e) := by
  subst h
  induction l with
  | nil => simp [optMap]
  | cons a l ih => simp [optMap, ih, List.replicate_succ]

lemma zip_replicate_length {α β : Type} (e : α) (l : List β) :
    (List.replicate l.length e).zip l = l.map (fun b => (e, b)) := by
  induction l with
  | nil => simp
  | cons b l ih => simp [List.replicate_succ, ih]

/-! The shape of initialize_weights' output. -/

lemma initWeightsAux_weights (ls : List ℚ) :
    ∀ i, (initWeightsAux i ls).weights = (List.range ls.length).map (fun j => Var.net (i + j)) := by
  induction ls with
  | nil => intro i; simp [initWeightsAux]
  | cons l ls ih =>
    intro i
    simp only [initWeightsAux, List.length_cons, List.range_succ_eq_map, List.map_cons,
      List.map_map, ih (i + 1)]
    have h2 : (List.range ls.length).map (fun j => Var.net (i + 1 + j)) =
        (List.range ls.length).map ((fun j => Var.net (i + j)) ∘ Nat.succ) := by
      apply List.map_congr_left
      intro j _
      simp only [Function.comp_apply]
      exact congrArg Var.net (by omega)
    rw [h2]
    simp

lemma initWeightsAux_wPlus (ls : List ℚ) :
    ∀ i, (initWeightsAux i ls).wPlus = (List.range ls.length).map (fun j => Var.long (i + j)) := by
  induction ls with
  | nil => intro i; simp [initWeightsAux]
  | cons l ls ih =>
    intro i
    simp only [initWeightsAux, List.length_cons, List.range_succ_eq_map, List.map_cons,
      List.map_map, ih (i + 1)]
    have h2 : (List.range ls.length).map (fun j => Var.long (i + 1 + j)) =
        (List.range ls.length).map ((fun j => Var.long (i + j)) ∘ Nat.succ) := by
      apply List.map_congr_left
      intro j _
      simp only [Function.comp_apply]
      exact congrArg Var.long (by omega)
    rw [h2]
    simp

lemma initWeightsAux_wMinus (ls : List ℚ) :
    ∀ i, (initWeightsAux i ls).wMinus = (List.range ls.length).map (fun j => Var.short (i + j)) := by
  induction ls with
  | nil => intro i; simp [initWeightsAux]
  | cons l ls ih =>
    intro i
    simp only [initWeightsAux, List.length_cons, List.range_succ_eq_map, List.map_cons,
      List.map_map, ih (i + 1)]
    have h2 : (List.range ls.length).map (fun j => Var.short (i + 1 + j)) =
        (List.range ls.length).map ((fun j => Var.short (i + j)) ∘ Nat.succ) := by
      apply List.map_congr_left
      intro j _
      simp only [Function.comp_apply]
      exact congrArg Var.short (by omega)
    rw [h2]
    simp

lemma initWeights_weights (n : ℕ) (liquidity : List ℚ) (h : liquidity.length = n) :
    (initWeights n liquidity).weights = (List.range n).map Var.net := by
  rw [initWeights, ← h, List.take_length, initWeightsAux_weights]
  simp

lemma initWeights_wPlus (n : ℕ) (liquidity : List ℚ) (h : liquidity.length = n) :
    (initWeights n liquidity).wPlus = (List.range n).map Var.long := by
  rw [initWeights, ← h, List.take_length, initWeightsAux_wPlus]
  simp

lemma initWeights_wMinus (n : ℕ) (liquidity : List ℚ) (h : liquidity.length = n) :
    (initWeights n liquidity).wMinus = (List.range n).map Var.short := by
  rw [initWeights, ← h, List.take_length, initWeightsAux_wMinus]
  simp

/-! Index/getD bookkeeping helpers. -/

lemma getElem?_eq_some_getD {α : Type} (l : List α) (d : α) (i : ℕ) (h : i < l.length) :
    l[i]? = some (l.getD i d) := by
  rw [List.getElem?_eq_getElem h, List.getD_eq_getElem?_getD, List.getElem?_eq_getElem h]
  rfl

lemma getD_map_range {α : Type} (f : ℕ → α) (n j : ℕ) (d : α) (h : j < n) :
    ((List.range n).map f).getD j d = f j := by
  rw [List.getD_eq_getElem?_getD, List.getElem?_map, List.getElem?_range h]
  rfl

lemma list_sum_map_add {α : Type} (l : List α) (f g : α → ℚ) :
    (l.map f).sum + (l.map g).sum = (l.map (fun x => f x + g x)).sum := by
  induction l with
  | nil => simp
  | cons a l ih => simp [← ih]; ring

lemma list_sum_map_const_nat {α : Type} (l : List α) (m : ℕ) :
    (l.map (fun _ => m)).sum = l.length * m := by
  induction l with
  | nil => simp
  | cons a l ih => simp [ih, Nat.succ_mul]; ring

/-! Specifications of the constraint-building loops, under the in-bounds
conditions that hold for contract-conforming inputs. -/

lemma objTermsAux_some (mkt theo cost : List ℚ) :
    ∀ (ws : List Var) (i : ℕ), i + ws.length ≤ mkt.length → i + ws.length ≤ theo.length →
    i + ws.length ≤ cost.length → ∃ es, objTermsAux mkt theo cost i ws = some es := by
  intro ws
  induction ws with
  | nil => intro i _ _ _; exact ⟨[], rfl⟩
  | cons w ws ih =>
    intro i h1 h2 h3
    simp only [List.length_cons] at h1 h2 h3
    obtain ⟨es, hes⟩ := ih (i + 1) (by omega) (by omega) (by omega)
    have h4 : i < mkt.length := by omega
    have h5 : i < theo.length := by omega
    have h6 : i < cost.length := by omega
    refine ⟨AffExpr.smul (theo.getD i 0 - mkt.getD i 0 - cost.getD i 0) (AffExpr.ofVar w) :: es, ?_⟩
    rw [List.getD_eq_getElem mkt 0 h4, List.getD_eq_getElem theo 0 h5,
      List.getD_eq_getElem cost 0 h6]
    simp [objTermsAux, List.getElem?_eq_getElem h4, List.getElem?_eq_getElem h5,
      List.getElem?_eq_getElem h6, hes]

lemma capTermsAux_spec (mkt cost : List ℚ) :
    ∀ (ws : List Var) (i : ℕ), i + ws.length ≤ mkt.length → i + ws.length ≤ cost.length →
    ∃ es, capTermsAux mkt cost i ws = some es ∧
      ∀ σ : Var → ℚ, (es.map (fun e => e.eval σ)).sum =
        ((List.range ws.length).map (fun j =>
          (mkt.getD (i + j) 0 + cost.getD (i + j) 0) * σ (ws.getD j (Var.net 0)))).sum := by
  intro ws
  induction ws with
  | nil => intro i _ _; exact ⟨[], rfl, by simp⟩
  | cons w ws ih =>
    intro i h1 h2
    simp only [List.length_cons] at h1 h2
    obtain ⟨es, hes, hsum⟩ := ih (i + 1) (by omega) (by omega)
    refine ⟨AffExpr.smul (mkt.getD i 0 + cost.getD i 0) (AffExpr.ofVar w) :: es, ?_, ?_⟩
    · have h4 : i < mkt.length := by omega
      have h5 : i < cost.length := by omega
      rw [List.getD_eq_getElem mkt 0 h4, List.getD_eq_getElem cost 0 h5]
      simp [capTermsAux, List.getElem?_eq_getElem h4, List.getElem?_eq_getElem h5, hes]
    · intro σ
      have h3 : (List.range ws.length).map ((fun j =>
          (mkt.getD (i + j) 0 + cost.getD (i + j) 0) *
            σ ((w :: ws).getD j (Var.net 0))) ∘ Nat.succ) =
          (List.range ws.length).map (fun j =>
          (mkt.getD (i + 1 + j) 0 + cost.getD (i + 1 + j) 0) * σ (ws.getD j (Var.net 0))) := by
        apply List.map_congr_left
        intro j _
        have hidx : i + (j + 1) = i + 1 + j := by omega
        simp only [Function.comp_apply, List.getD_cons_succ, hidx]
      simp only [List.map_cons, List.sum_cons, hsum σ, List.length_cons,
        List.range_succ_eq_map, List.map_map, h3, List.getD_cons_zero,
        AffExpr.eval_smul, AffExpr.eval_ofVar]
      simp

lemma liqConstraintsAux_some (liq : List ℚ) :
    ∀ (ps : List (Var × Var)) (i : ℕ), i + ps.length ≤ liq.length →
    ∃ cs, liqConstraintsAux liq i ps = some cs := by
  intro ps
  induction ps with
  | nil => intro i _; exact ⟨[], rfl⟩
  | cons p ps ih =>
    intro i h1
    simp only [List.length_cons] at h1
    obtain ⟨cs, hcs⟩ := ih (i + 1) (by omega)
    have h4 : i < liq.length := by omega
    refine ⟨Constr.le (AffExpr.ofVar p.1) (liq.getD i 0) ::
      Constr.le (AffExpr.ofVar p.2) (liq.getD i 0) :: cs, ?_⟩
    rw [List.getD_eq_getElem liq 0 h4]
    simp [liqConstraintsAux, List.getElem?_eq_getElem h4, hcs]

lemma posLimitAux_some (mkt cost : List ℚ) (maxInv : ℚ) :
    ∀ (ws : List Var) (i : ℕ), i + ws.length ≤ mkt.length → i + ws.length ≤ cost.length →
    ∃ cs, posLimitAux mkt cost maxInv i ws = some cs := by
  intro ws
  induction ws with
  | nil => intro i _ _; exact ⟨[], rfl⟩
  | cons w ws ih =>
    intro i h1 h2
    simp only [List.length_cons] at h1 h2
    obtain ⟨cs, hcs⟩ := ih (i + 1) (by omega) (by omega)
    have h4 : i < mkt.length := by omega
    have h5 : i < cost.length := by omega
    refine ⟨Constr.le (AffExpr.smul (mkt.getD i 0 + cost.getD i 0) (AffExpr.ofVar w)) maxInv ::
      Constr.ge (AffExpr.smul (mkt.getD i 0 + cost.getD i 0) (AffExpr.ofVar w)) (-maxInv) :: cs, ?_⟩
    rw [List.getD_eq_getElem mkt 0 h4, List.getD_eq_getElem cost 0 h5]
    simp [posLimitAux, List.getElem?_eq_getElem h4, List.getElem?_eq_getElem h5, hcs]

lemma portfolioReturnAux_spec (theo mkt cost : List ℚ) :
    ∀ (ws : List Var) (i : ℕ) (acc : AffExpr),
    i + ws.length ≤ theo.length → i + ws.length ≤ mkt.length → i + ws.length ≤ cost.length →
    ∃ e, portfolioReturnAux theo mkt cost i ws acc = some e ∧
      ∀ σ : Var → ℚ, e.eval σ = acc.eval σ +
        ((List.range ws.length).map (fun j =>
          (theo.getD (i + j) 0 - mkt.getD (i + j) 0 - cost.getD (i + j) 0) *
            σ (ws.getD j (Var.net 0)))).sum := by
  intro ws
  induction ws with
  | nil => intro i acc _ _ _; exact ⟨acc, rfl, by simp⟩
  | cons w ws ih =>
    intro i acc h1 h2 h3
    simp only [List.length_cons] at h1 h2 h3
    obtain ⟨e, he, hsum⟩ := ih (i + 1)
      (acc.add (AffExpr.smul (theo.getD i 0 - mkt.getD i 0 - cost.getD i 0) (AffExpr.ofVar w)))
      (by omega) (by omega) (by omega)
    refine ⟨e, ?_, ?_⟩
    · have h4 : i < theo.length := by omega
      have h5 : i < mkt.length := by omega
      have h6 : i < cost.length := by omega
      rw [List.getD_eq_getElem theo 0 h4] at he
      rw [List.getD_eq_getElem mkt 0 h5] at he
      rw [List.getD_eq_getElem cost 0 h6] at he
      simp [portfolioReturnAux, List.getElem?_eq_getElem h4, List.getElem?_eq_getElem h5,
        List.getElem?_eq_getElem h6, he]
    · intro σ
      have h4 : (List.range ws.length).map ((fun j =>
          (theo.getD (i + j) 0 - mkt.getD (i + j) 0 - cost.getD (i + j) 0) *
            σ ((w :: ws).getD j (Var.net 0))) ∘ Nat.succ) =
          (List.range ws.length).map (fun j =>
          (theo.getD (i + 1 + j) 0 - mkt.getD (i + 1 + j) 0 - cost.getD (i + 1 + j) 0) *
            σ (ws.getD j (Var.net 0))) := by
        apply List.map_congr_left
        intro j _
        have hidx : i + (j + 1) = i + 1 + j := by omega
        simp only [Function.comp_apply, List.getD_cons_succ, hidx]
      simp only [hsum σ, List.length_cons, List.range_succ_eq_map, List.map_cons,
        List.map_map, List.sum_cons, h4, List.getD_cons_zero, Nat.add_zero,
        AffExpr.eval_add, AffExpr.eval_smul, AffExpr.eval_ofVar]
      ring

/-! Normal form of the stochastic-dominance constraint builder. -/

lemma domInnerAux (rl : ℚ) :
    ∀ (prs : List AffExpr) (irets : List ℚ), prs.length ≤ irets.length →
    optMap (fun s => do
        let pr ← prs[s]?
        let ir ← irets[s]?
        pure (Constr.ge (AffExpr.smul rl pr) (ir * rl)))
      (List.range prs.length) =
    some ((prs.zip irets).map (fun p => Constr.ge (AffExpr.smul rl p.1) (p.2 * rl))) := by
  intro prs
  induction prs with
  | nil => intro irets _; simp [optMap]
  | cons a as ih =>
    intro irets h
    cases irets with
    | nil => simp at h
    | cons b bs =>
      simp only [List.length_cons] at h
      have h2 := ih bs (by omega)
      simp only [List.length_cons, List.range_succ_eq_map, optMap, optMap_map,
        List.getElem?_cons_zero, Option.some_bind, Nat.succ_eq_add_one,
        List.getElem?_cons_succ, List.zip_cons_cons, List.map_cons]
      rw [h2]
      rfl

lemma dom_optMap (prs : List AffExpr) (irets : List ℚ) (h : prs.length ≤ irets.length) :
    ∀ levels : List ℚ,
    optMap (fun rl =>
      optMap (fun s => do
          let pr ← prs[s]?
          let ir ← irets[s]?
          pure (Constr.ge (AffExpr.smul rl pr) (ir * rl)))
        (List.range prs.length)) levels =
    some (levels.map (fun rl =>
      (prs.zip irets).map (fun p => Constr.ge (AffExpr.smul rl p.1) (p.2 * rl)))) := by
  intro levels
  induction levels with
  | nil => simp [optMap]
  | cons rl ls ih =>
    simp only [optMap]
    rw [domInnerAux rl prs irets h, ih]
    rfl

lemma dom_spec (prs : List AffExpr) (irets : List ℚ) (levels : List ℚ)
    (h : prs.length ≤ irets.length) :
    add_stochastic_dominance_constraints prs irets levels =
    some ((levels.map (fun rl =>
      (prs.zip irets).map (fun p => Constr.ge (AffExpr.smul rl p.1) (p.2 * rl)))).flatten) := by
  rw [add_stochastic_dominance_constraints, dom_optMap prs irets h levels]
  rfl

/-! The assembled problem, for contract-conforming input dimensions. -/

lemma find_arbitrage_problem_spec (callP putP : ℚ → ℚ → ℚ → ℚ → ℚ → ℚ)
    (mkts costs liq irets levels : List ℚ) (cap : ℚ) (od : List OptionData)
    (hod : od.length = mkts.length) (hcost : costs.length = mkts.length)
    (hliq : liq.length = mkts.length) :
    ∃ p capE prE,
      find_arbitrage_problem callP putP mkts costs cap liq irets levels od = some p ∧
      p.capitalConstraint = Constr.le capE cap ∧
      (∀ σ : Var → ℚ, capE.eval σ =
        ((List.range mkts.length).map (fun i =>
          (σ (Var.long i) + σ (Var.short i)) * (mkts.getD i 0 + costs.getD i 0))).sum) ∧
      p.dominanceConstraints = (levels.map (fun rl => irets.map (fun ir =>
        Constr.ge (AffExpr.smul rl prE) (ir * rl)))).flatten ∧
      (∀ σ : Var → ℚ, prE.eval σ =
        ((List.range mkts.length).map (fun i =>
          ((computeTheoreticalPricesLP callP putP od).getD i 0 - mkts.getD i 0 - costs.getD i 0) *
            σ (Var.net i))).sum) := by
  have htheo : (computeTheoreticalPricesLP callP putP od).length = mkts.length := by
    simp [computeTheoreticalPricesLP, hod]
  have hw := initWeights_weights mkts.length liq hliq
  have hwp := initWeights_wPlus mkts.length liq hliq
  have hwm := initWeights_wMinus mkts.length liq hliq
  obtain ⟨objEs, hobj⟩ := objTermsAux_some mkts (computeTheoreticalPricesLP callP putP od) costs
    ((List.range mkts.length).map Var.net) 0 (by simp) (by simp [htheo]) (by simp [hcost])
  obtain ⟨esP, hesP, hsumP⟩ := capTermsAux_spec mkts costs
    ((List.range mkts.length).map Var.long) 0 (by simp) (by simp [hcost])
  obtain ⟨esM, hesM, hsumM⟩ := capTermsAux_spec mkts costs
    ((List.range mkts.length).map Var.short) 0 (by simp) (by simp [hcost])
  obtain ⟨liqCs, hliqCs⟩ := liqConstraintsAux_some liq
    (((List.range mkts.length).map Var.long).zip ((List.range mkts.length).map Var.short)) 0
    (by simp [hliq])
  obtain ⟨prE, hprE, hprEval⟩ := portfolioReturnAux_spec (computeTheoreticalPricesLP callP putP od)
    mkts costs ((List.range mkts.length).map Var.net) 0 (AffExpr.ofConst 0)
    (by simp [htheo]) (by simp) (by simp [hcost])
  have hprs : portfolio_returns irets.length ((List.range mkts.length).map Var.net)
      (computeTheoreticalPricesLP callP putP od) mkts costs =
      some (List.replicate irets.length prE) := by
    have h2 := optMap_const_some (List.range irets.length) _ prE hprE
    rw [portfolio_returns, h2]
    simp
  have hdom : add_stochastic_dominance_constraints (List.replicate irets.length prE) irets levels =
      some ((levels.map (fun rl => irets.map (fun ir =>
        Constr.ge (AffExpr.smul rl prE) (ir * rl)))).flatten) := by
    rw [dom_spec _ _ _ (by simp)]
    simp [zip_replicate_length prE irets, List.map_map, Function.comp_def]
  obtain ⟨posCs, hposCs⟩ := posLimitAux_some mkts costs
    (cap / ((((List.range mkts.length).map Var.net).length : ℕ) : ℚ))
    ((List.range mkts.length).map Var.net) 0 (by simp) (by simp [hcost])
  have hmain : find_arbitrage_problem callP putP mkts costs cap liq irets levels od =
      some ⟨(initWeights mkts.length liq).decls,
        objEs.foldl AffExpr.add (AffExpr.ofConst 0),
        (initWeights mkts.length liq).eqConstraints,
        Constr.le ((esP.foldl AffExpr.add (AffExpr.ofConst 0)).add
          (esM.foldl AffExpr.add (AffExpr.ofConst 0))) cap,
        liqCs,
        (levels.map (fun rl => irets.map (fun ir =>
          Constr.ge (AffExpr.smul rl prE) (ir * rl)))).flatten,
        posCs⟩ := by
    simp only [find_arbitrage_problem, build_objective, compute_total_capital_constraint,
      add_liquidity_constraints, hw, hwp, hwm, hobj, hesP, hesM, hliqCs, hprs, hposCs]
    simp [hdom]
  refine ⟨_, (esP.foldl AffExpr.add (AffExpr.ofConst 0)).add
    (esM.foldl AffExpr.add (AffExpr.ofConst 0)), prE, hmain, rfl, ?_, rfl, ?_⟩
  · intro σ
    rw [AffExpr.eval_add, AffExpr.eval_foldl_add, AffExpr.eval_foldl_add]
    simp only [AffExpr.eval_ofConst, zero_add]
    rw [hsumP σ, hsumM σ]
    simp only [List.length_map, List.length_range]
    rw [list_sum_map_add]
    refine congrArg List.sum (List.map_congr_left ?_)
    intro j hj
    have hjn : j < mkts.length := List.mem_range.mp hj
    rw [getD_map_range Var.long mkts.length j (Var.net 0) hjn,
      getD_map_range Var.short mkts.length j (Var.net 0) hjn]
    simp only [Nat.zero_add]
    ring
  · intro σ
    rw [hprEval σ]
    simp only [AffExpr.eval_ofConst, zero_add, List.length_map, List.length_range]
    refine congrArg List.sum (List.map_congr_left ?_)
    intro j hj
    have hjn : j < mkts.length := List.mem_range.mp hj
    rw [getD_map_range Var.net mkts.length j (Var.net 0) hjn]

lemma zip_map_fst {α β γ : Type} (f : α → γ) :
    ∀ (l₁ : List α) (l₂ : List β),
    (l₁.zip l₂).map (fun p => (f p.1, p.2)) = (l₁.map f).zip l₂ := by
  intro l₁
  induction l₁ with
  | nil => intro l₂; simp
  | cons a l ih =>
    intro l₂
    cases l₂ with
    | nil => simp
    | cons b l₂ => simp [ih]

/-- Satisfaction of the dominance group, for a NONEMPTY list of positive
risk levels, is equivalent to the unscaled per-state comparisons. -/
lemma satAll_dom (σ : Var → ℚ) (prs : List AffExpr) (irets : List ℚ) (L : List ℚ)
    (hpos : ∀ rl ∈ L, 0 < rl) (hne : L ≠ []) :
    (satAll σ ((L.map (fun rl => (prs.zip irets).map
      (fun p => Constr.ge (AffExpr.smul rl p.1) (p.2 * rl)))).flatten) = true) ↔
    ∀ p ∈ prs.zip irets, p.2 ≤ p.1.eval σ := by
  rw [satAll, List.all_eq_true]
  constructor
  · intro h p hp
    obtain ⟨rl0, hrl0⟩ := List.exists_mem_of_ne_nil L hne
    have hmem : Constr.ge (AffExpr.smul rl0 p.1) (p.2 * rl0) ∈
        (L.map (fun rl => (prs.zip irets).map
          (fun q => Constr.ge (AffExpr.smul rl q.1) (q.2 * rl)))).flatten :=
      List.mem_flatten.mpr ⟨_, List.mem_map.mpr ⟨rl0, hrl0, rfl⟩,
        List.mem_map.mpr ⟨p, hp, rfl⟩⟩
    have hc := h _ hmem
    simp only [Constr.holds, AffExpr.eval_smul, decide_eq_true_eq] at hc
    have h0 := hpos rl0 hrl0
    nlinarith [hc, h0]
  · intro h c hc
    obtain ⟨s, hsmem, hcs⟩ := List.mem_flatten.mp hc
    obtain ⟨rl0, hrl0, hseq⟩ := List.mem_map.mp hsmem
    subst hseq
    obtain ⟨p, hp, hceq⟩ := List.mem_map.mp hcs
    subst hceq
    have h0 := hpos rl0 hrl0
    have h1 := h p hp
    simp only [Constr.holds, AffExpr.eval_smul, decide_eq_true_eq]
    nlinarith [h1, h0]

/-- C4: for every contract-conforming input, find_arbitrage adds exactly one
stochastic-dominance constraint per (risk_level, state) pair — |risk_levels| ×
|benchmark_payoffs| constraints in total, in risk-major order — and each has
the form portfolio_return * risk_level ≥ benchmark_return_state * risk_level,
where portfolio_return evaluates to
Σ_i net_i * (theoretical_price_i − market_price_i − transaction_cost_i). -/
theorem C4_dominance_constraints (callP putP : ℚ → ℚ → ℚ → ℚ → ℚ → ℚ)
    (mkts costs liq irets levels : List ℚ) (cap : ℚ) (od : List OptionData)
    (hod : od.length = mkts.length) (hcost : costs.length = mkts.length)
    (hliq : liq.length = mkts.length) :
    ∃ p prE,
      find_arbitrage_problem callP putP mkts costs cap liq irets levels od = some p ∧
      p.dominanceConstraints.length = levels.length * irets.length ∧
      p.dominanceConstraints = (levels.map (fun rl => irets.map (fun ir =>
        Constr.ge (AffExpr.smul rl prE) (ir * rl)))).flatten ∧
      (∀ σ : Var → ℚ, prE.eval σ =
        ((List.range mkts.length).map (fun i =>
          ((computeTheoreticalPricesLP callP putP od).getD i 0 - mkts.getD i 0 - costs.getD i 0) *
            σ (Var.net i))).sum) := by
  obtain ⟨p, capE, prE, h1, h2, h3, h4, h5⟩ :=
    find_arbitrage_problem_spec callP putP mkts costs liq irets levels cap od hod hcost hliq
  refine ⟨p, prE, h1, ?_, h4, h5⟩
  rw [h4, List.length_flatten, List.map_map]
  have h6 : (levels.map (List.length ∘ fun rl => irets.map fun ir =>
      Constr.ge (AffExpr.smul rl prE) (ir * rl))) = levels.map (fun _ => irets.length) := by
    apply List.map_congr_left
    intro rl _
    simp
  rw [h6, list_sum_map_const_nat]

/-- C4 witness: the dominance-constraint count and form at a concrete
two-level, two-state, one-instrument input. -/
theorem C4_witness :
    ∃ p prE,
      find_arbitrage_problem sampleCall samplePut [8] [1/100] 10000 [50] [1/20, 3/100]
        [1/2, 2] [sampleOption] = some p ∧
      p.dominanceConstraints.length = [(1:ℚ)/2, 2].length * [(1:ℚ)/20, 3/100].length ∧
      p.dominanceConstraints = ([(1:ℚ)/2, 2].map (fun rl => [(1:ℚ)/20, 3/100].map (fun ir =>
        Constr.ge (AffExpr.smul rl prE) (ir * rl)))).flatten ∧
      (∀ σ : Var → ℚ, prE.eval σ =
        ((List.range [(8:ℚ)].length).map (fun i =>
          ((computeTheoreticalPricesLP sampleCall samplePut [sampleOption]).getD i 0 -
            [(8:ℚ)].getD i 0 - [(1:ℚ)/100].getD i 0) * σ (Var.net i))).sum) :=
  C4_dominance_constraints sampleCall samplePut [8] [1/100] [50] [1/20, 3/100] [1/2, 2]
    10000 [sampleOption] rfl rfl rfl

/-- C5: for every contract-conforming input, the capital constraint added to
the problem is Σ_i (long_i + short_i) * (market_price_i + transaction_cost_i)
≤ capital: it bounds gross exposure (long plus short parts), not net
exposure. -/
theorem C5_capital_constraint (callP putP : ℚ → ℚ → ℚ → ℚ → ℚ → ℚ)
    (mkts costs liq irets levels : List ℚ) (cap : ℚ) (od : List OptionData)
    (hod : od.length = mkts.length) (hcost : costs.length = mkts.length)
    (hliq : liq.length = mkts.length) :
    ∃ p capE,
      find_arbitrage_problem callP putP mkts costs cap liq irets levels od = some p ∧
      p.capitalConstraint = Constr.le capE cap ∧
      (∀ σ : Var → ℚ, capE.eval σ =
        ((List.range mkts.length).map (fun i =>
          (σ (Var.long i) + σ (Var.short i)) * (mkts.getD i 0 + costs.getD i 0))).sum) ∧
      (∀ σ : Var → ℚ, (p.capitalConstraint.holds σ = true ↔
        ((List.range mkts.length).map (fun i =>
          (σ (Var.long i) + σ (Var.short i)) * (mkts.getD i 0 + costs.getD i 0))).sum ≤ cap)) := by
  obtain ⟨p, capE, prE, h1, h2, h3, h4, h5⟩ :=
    find_arbitrage_problem_spec callP putP mkts costs liq irets levels cap od hod hcost hliq
  refine ⟨p, capE, h1, h2, h3, ?_⟩
  intro σ
  rw [h2]
  simp only [Constr.holds, decide_eq_true_eq, h3 σ]

/-- C5 witness: the capital constraint at a concrete one-instrument input. -/
theorem C5_witness :
    ∃ p capE,
      find_arbitrage_problem sampleCall samplePut [8] [1/100] 10000 [50] [1/20] [1/2]
        [sampleOption] = some p ∧
      p.capitalConstraint = Constr.le capE 10000 ∧
      (∀ σ : Var → ℚ, capE.eval σ =
        ((List.range [(8:ℚ)].length).map (fun i =>
          (σ (Var.long i) + σ (Var.short i)) * ([(8:ℚ)].getD i 0 + [(1:ℚ)/100].getD i 0))).sum) ∧
      (∀ σ : Var → ℚ, (p.capitalConstraint.holds σ = true ↔
        ((List.range [(8:ℚ)].length).map (fun i =>
          (σ (Var.long i) + σ (Var.short i)) *
            ([(8:ℚ)].getD i 0 + [(1:ℚ)/100].getD i 0))).sum ≤ 10000)) :=
  C5_capital_constraint sampleCall samplePut [8] [1/100] [50] [1/20] [1/2] 10000
    [sampleOption] rfl rfl rfl

/-- C1 counterexample: on a well-formed one-instrument request, a backend
that reports Infeasible makes find_arbitrage panic (the source calls
problem.solve().unwrap() and returns a plain Vec of positions), so the
solver failure is not returned to the caller as a typed result. -/
theorem C1_counterexample :
    find_arbitrage sampleCall samplePut (fun _ => Except.error SolveFailure.infeasible)
      [8] [1/100] 10000 [50] [1/20] [1/2] [sampleOption] = RunResult.panicked := by
  decide

/-- C1 amended: for every contract-conforming input, a solver failure of any
kind (Infeasible, Unbounded, NumericalFailure) aborts find_arbitrage with a
panic — the unwrap on the solve result — rather than being propagated to the
caller as a typed Result value. -/
theorem C1_amended (callP putP : ℚ → ℚ → ℚ → ℚ → ℚ → ℚ)
    (mkts costs liq irets levels : List ℚ) (cap : ℚ) (od : List OptionData)
    (e : SolveFailure)
    (hod : od.length = mkts.length) (hcost : costs.length = mkts.length)
    (hliq : liq.length = mkts.length) :
    find_arbitrage callP putP (fun _ => Except.error e) mkts costs cap liq irets levels od =
      RunResult.panicked := by
  obtain ⟨p, capE, prE, h1, h2, h3, h4, h5⟩ :=
    find_arbitrage_problem_spec callP putP mkts costs liq irets levels cap od hod hcost hliq
  simp [find_arbitrage, h1]

/-- C1 amended witness: a concrete panic on an Unbounded solver outcome. -/
theorem C1_amended_witness :
    find_arbitrage sampleCall samplePut (fun _ => Except.error SolveFailure.unbounded)
      [8] [1/100] 10000 [50] [1/20] [1/2] [sampleOption] = RunResult.panicked :=
  C1_amended sampleCall samplePut [8] [1/100] [50] [1/20] [1/2] 10000 [sampleOption]
    SolveFailure.unbounded rfl rfl rfl

/-- C8 counterexample: an empty benchmark_payoffs list is accepted — with a
backend returning the all-zero solution, find_arbitrage completes normally
and returns a position vector instead of failing with a DimensionMismatch
error before constraint building. -/
theorem C8_counterexample :
    find_arbitrage sampleCall samplePut (fun _ => Except.ok (fun _ => 0))
      [8] [1/100] 10000 [50] [] [1/2] [sampleOption] = RunResult.ok [0] := by
  decide

/-- C8 amended: the source performs no dimension validation and no
DimensionMismatch error exists; in particular an empty benchmark_payoffs
list is accepted: the problem is built with zero dominance constraints and
the run completes, returning the resolved positions. (A too-short
transaction-costs list causes an out-of-bounds index panic, and a too-short
liquidity list silently truncates the variable set — neither is a typed
dimension error.) -/
theorem C8_amended (callP putP : ℚ → ℚ → ℚ → ℚ → ℚ → ℚ)
    (mkts costs liq levels : List ℚ) (cap : ℚ) (od : List OptionData) (σ : Var → ℚ)
    (hod : od.length = mkts.length) (hcost : costs.length = mkts.length)
    (hliq : liq.length = mkts.length) :
    ∃ p, find_arbitrage_problem callP putP mkts costs cap liq [] levels od = some p ∧
      p.dominanceConstraints = [] ∧
      find_arbitrage callP putP (fun _ => Except.ok σ) mkts costs cap liq [] levels od =
        RunResult.ok ((List.range mkts.length).map (fun i => σ (Var.net i))) := by
  obtain ⟨p, capE, prE, h1, h2, h3, h4, h5⟩ :=
    find_arbitrage_problem_spec callP putP mkts costs liq [] levels cap od hod hcost hliq
  refine ⟨p, h1, ?_, ?_⟩
  · rw [h4]
    simp
  · simp [find_arbitrage, h1, initWeights_weights mkts.length liq hliq, List.map_map,
      Function.comp_def]

/-- C8 amended witness: concrete empty-benchmark run that succeeds. -/
theorem C8_amended_witness :
    ∃ p, find_arbitrage_problem sampleCall samplePut [8] [1/100] 10000 [50] [] [1/2]
        [sampleOption] = some p ∧
      p.dominanceConstraints = [] ∧
      find_arbitrage sampleCall samplePut (fun _ => Except.ok (fun _ => 0))
        [8] [1/100] 10000 [50] [] [1/2] [sampleOption] =
        RunResult.ok ((List.range [(8:ℚ)].length).map (fun _ => (0:ℚ))) :=
  C8_amended sampleCall samplePut [8] [1/100] [50] [1/2] 10000 [sampleOption]
    (fun _ => 0) rfl rfl rfl

/-- C9: for every contract-conforming input on which the solve succeeds,
construct_portfolio returns holdings that pair the i-th input instrument's
name with its resolved net position, in input order, with length exactly n:
nothing is reordered or filtered, and zero positions are reported. -/
theorem C9_portfolio_holdings (callP putP : ℚ → ℚ → ℚ → ℚ → ℚ → ℚ)
    (od : List OptionData) (cap : ℚ) (levels irets costs liq : List ℚ) (σ : Var → ℚ)
    (hcost : costs.length = od.length) (hliq : liq.length = od.length) :
    construct_portfolio callP putP (fun _ => Except.ok σ) od cap levels irets costs liq =
      RunResult.ok ⟨(od.map (fun o => o.name)).zip
        ((List.range od.length).map (fun i => σ (Var.net i)))⟩ ∧
    ((od.map (fun o => o.name)).zip
        ((List.range od.length).map (fun i => σ (Var.net i)))).length = od.length := by
  have hmkts : (od.map (fun o => o.marketPrice)).length = od.length := by simp
  obtain ⟨p, capE, prE, h1, h2, h3, h4, h5⟩ :=
    find_arbitrage_problem_spec callP putP (od.map (fun o => o.marketPrice)) costs liq irets
      levels cap od (by simp) (by simp [hcost]) (by simp [hliq])
  constructor
  · have hw2 : (initWeights od.length liq).weights = (List.range od.length).map Var.net :=
      initWeights_weights od.length liq hliq
    simp only [construct_portfolio, find_arbitrage, h1, hmkts, hw2, List.map_map]
    rw [zip_map_fst]
    simp [Function.comp_def]
  · simp

/-- C9 witness: concrete one-instrument portfolio assembly. -/
theorem C9_witness :
    construct_portfolio sampleCall samplePut (fun _ => Except.ok (fun _ => 0))
      [sampleOption] 10000 [1/2] [1/20] [1/100] [50] =
      RunResult.ok ⟨([sampleOption].map (fun o => o.name)).zip
        ((List.range [sampleOption].length).map (fun i => (fun _ => (0:ℚ)) (Var.net i)))⟩ ∧
    (([sampleOption].map (fun o => o.name)).zip
        ((List.range [sampleOption].length).map
          (fun i => (fun _ => (0:ℚ)) (Var.net i)))).length = [sampleOption].length :=
  C9_portfolio_holdings sampleCall samplePut [sampleOption] 10000 [1/2] [1/20] [1/100] [50]
    (fun _ => 0) rfl rfl

/-- C10 counterexample: the claim quantifies over lists of strictly positive
risk levels, which includes the empty list (vacuously all-positive).  With
portfolio returns [0] and benchmark [1], the empty risk-level list generates
no dominance constraints (every assignment feasible) while the list [1]
generates one unsatisfied constraint at the zero assignment — so two lists
of strictly positive risk levels need not admit the same assignments. -/
theorem C10_counterexample :
    add_stochastic_dominance_constraints [AffExpr.ofConst 0] [1] [] = some [] ∧
    add_stochastic_dominance_constraints [AffExpr.ofConst 0] [1] [1] =
      some [Constr.ge (AffExpr.smul 1 (AffExpr.ofConst 0)) (1 * 1)] ∧
    satAll (fun _ => 0) [] = true ∧
    satAll (fun _ => 0) [Constr.ge (AffExpr.smul 1 (AffExpr.ofConst 0)) (1 * 1)] = false := by
  refine ⟨rfl, rfl, rfl, ?_⟩
  simp [satAll, Constr.holds, AffExpr.eval, AffExpr.smul, AffExpr.ofConst]

/-- C10 amended: scaling by a positive risk level does not change the
feasible set: for every assignment, the dominance constraints generated from
a nonempty list of strictly positive risk levels are satisfied exactly when
the unscaled comparisons portfolio_return_s ≥ benchmark_s hold for every
state; hence any two NONEMPTY lists of strictly positive risk levels
generate dominance constraints admitting exactly the same assignments. -/
theorem C10_amended (prs : List AffExpr) (irets : List ℚ) (L1 L2 : List ℚ) (σ : Var → ℚ)
    (hlen : prs.length ≤ irets.length)
    (hp1 : ∀ rl ∈ L1, 0 < rl) (hp2 : ∀ rl ∈ L2, 0 < rl)
    (hn1 : L1 ≠ []) (hn2 : L2 ≠ []) :
    ∃ cs1 cs2,
      add_stochastic_dominance_constraints prs irets L1 = some cs1 ∧
      add_stochastic_dominance_constraints prs irets L2 = some cs2 ∧
      (satAll σ cs1 = true ↔ ∀ p ∈ prs.zip irets, p.2 ≤ p.1.eval σ) ∧
      (satAll σ cs1 = true ↔ satAll σ cs2 = true) := by
  refine ⟨_, _, dom_spec prs irets L1 hlen, dom_spec prs irets L2 hlen, ?_, ?_⟩
  · exact satAll_dom σ prs irets L1 hp1 hn1
  · rw [satAll_dom σ prs irets L1 hp1 hn1, satAll_dom σ prs irets L2 hp2 hn2]

/-- C10 amended witness: concrete instantiation with risk-level lists [1]
and [2] over one state. -/
theorem C10_amended_witness :
    ∃ cs1 cs2,
      add_stochastic_dominance_constraints [AffExpr.ofConst 0] [1] [1] = some cs1 ∧
      add_stochastic_dominance_constraints [AffExpr.ofConst 0] [1] [2] = some cs2 ∧
      (satAll (fun _ => 0) cs1 = true ↔
        ∀ p ∈ [AffExpr.ofConst (0:ℚ)].zip [(1:ℚ)], p.2 ≤ p.1.eval (fun _ => 0)) ∧
      (satAll (fun _ => 0) cs1 = true ↔ satAll (fun _ => 0) cs2 = true) :=
  C10_amended [AffExpr.ofConst 0] [1] [1] [2] (fun _ => 0) (by decide) (by decide)
    (by decide) (by decide) (by decide)

/-! Pricing-layer lemmas. -/

lemma erf_integral_neg (x : ℝ) :
    (∫ t in (0:ℝ)..(-x), Real.exp (-t ^ 2)) = -∫ t in (0:ℝ)..x, Real.exp (-t ^ 2) := by
  have h2 : (∫ t in (0:ℝ)..(-x), Real.exp (-(-t) ^ 2)) =
      ∫ t in (-(-x))..(-(0:ℝ)), Real.exp (-t ^ 2) :=
    intervalIntegral.integral_comp_neg (fun t => Real.exp (-t ^ 2))
  simp only [neg_sq, neg_neg, neg_zero] at h2
  rw [h2, intervalIntegral.integral_symm]

/-- The error function is odd, as needed for norm_cdf(-x) = 1 - norm_cdf(x). -/
lemma realErf_neg (x : ℝ) : realErf (-x) = -realErf x := by
  unfold realErf
  rw [erf_integral_neg]
  ring

/-- C7: for every s, k, r and sigma, at t = 0 the code returns the exact
intrinsic values max(s-k, 0) for the call and max(k-s, 0) for the put (the
early-return branch fires before the volatility-time division). -/
theorem C7_zero_time_intrinsic (s k r sigma : ℝ) :
    black_scholes_call s k 0 r sigma = FVal.finite (max (s - k) 0) ∧
    black_scholes_put s k 0 r sigma = FVal.finite (max (k - s) 0) := by
  constructor
  · simp [black_scholes_call]
  · simp [black_scholes_put]

/-! Single-step evaluation lemmas for the f64 model. -/

lemma FVal.add_finite (a b : ℝ) : (FVal.finite a).add (FVal.finite b) = FVal.finite (a + b) := rfl

lemma FVal.mul_finite (a b : ℝ) : (FVal.finite a).mul (FVal.finite b) = FVal.finite (a * b) := rfl

lemma FVal.neg_finite (a : ℝ) : (FVal.finite a).neg = FVal.finite (-a) := rfl

lemma FVal.sub_finite (a b : ℝ) :
    (FVal.finite a).sub (FVal.finite b) = FVal.finite (a - b) := by
  rw [sub_eq_add_neg]
  rfl

lemma FVal.div_finite {b : ℝ} (hb : b ≠ 0) (a : ℝ) :
    (FVal.finite a).div (FVal.finite b) = FVal.finite (a / b) := by
  simp [FVal.div, hb]

lemma FVal.sqrt_finite {a : ℝ} (h : 0 ≤ a) :
    (FVal.finite a).sqrt = FVal.finite (Real.sqrt a) := by
  simp [FVal.sqrt, h]

lemma FVal.ln_finite {a : ℝ} (h : 0 < a) :
    (FVal.finite a).ln = FVal.finite (Real.log a) := by
  simp [FVal.ln, h]

lemma norm_cdf_finite (y : ℝ) :
    norm_cdf (FVal.finite y) = FVal.finite (0.5 * (1 + realErf (y / Real.sqrt 2))) := by
  have hsq2 : Real.sqrt 2 ≠ 0 := by positivity
  simp [norm_cdf, FVal.div, FVal.erf, FVal.add, FVal.mul, hsq2]

lemma norm_cdf_inf : norm_cdf FVal.inf = FVal.finite 1 := by
  have hsq2p : (0:ℝ) ≤ Real.sqrt 2 := Real.sqrt_nonneg 2
  simp [norm_cdf, FVal.div, FVal.erf, FVal.add, FVal.mul, hsq2p]
  norm_num

lemma norm_cdf_negInf : norm_cdf FVal.negInf = FVal.finite 0 := by
  have hsq2p : (0:ℝ) ≤ Real.sqrt 2 := Real.sqrt_nonneg 2
  simp [norm_cdf, FVal.div, FVal.erf, FVal.add, FVal.mul, hsq2p]

/-- With zero volatility and log(s/k) + rt < 0 (spot strictly below the
discounted strike), d1 = A/0 = -infinity: the call prices to 0 and the put
to the discounted intrinsic, so parity holds. -/
lemma bs_parity_zero_vol_neg (s k t r : ℝ) (hs : 0 < s) (hk : 0 < k) (htpos : 0 < t)
    (hAneg : Real.log (s / k) + r * t < 0) :
    (black_scholes_call s k t r 0).sub (black_scholes_put s k t r 0) =
      FVal.finite (s - k * Real.exp (-(r * t))) := by
  have h1 : t ≠ 0 := ne_of_gt htpos
  have h2 : k ≠ 0 := ne_of_gt hk
  have h3 : 0 < s / k := div_pos hs hk
  have h6 : (0:ℝ) ≤ t := le_of_lt htpos
  have hA0 : Real.log (s / k) + r * t ≠ 0 := ne_of_lt hAneg
  have hAnlt : ¬(0 < Real.log (s / k) + r * t) := not_lt.mpr (le_of_lt hAneg)
  simp only [black_scholes_call, black_scholes_put, if_neg h1]
  rw [FVal.sqrt_finite h6]
  rw [show FVal.mul (FVal.finite 0) (FVal.finite (Real.sqrt t)) = FVal.finite 0 by
    simp [FVal.mul]]
  rw [FVal.div_finite h2, FVal.ln_finite h3, FVal.add_finite]
  rw [show FVal.div (FVal.finite (Real.log (s / k) + (r + 0.5 * 0 ^ 2) * t)) (FVal.finite 0) =
    FVal.negInf by simp [FVal.div, hA0, hAnlt]]
  rw [show FVal.sub FVal.negInf (FVal.finite 0) = FVal.negInf from rfl]
  rw [show FVal.neg FVal.negInf = FVal.inf from rfl]
  rw [norm_cdf_negInf, norm_cdf_inf]
  simp only [FVal.mul_finite, FVal.sub_finite, FVal.mul, FVal.sub, FVal.neg, FVal.add]
  norm_num
  ring

/-- With zero volatility and log(s/k) + rt > 0, d1 = A/0 = +infinity: the
call prices to the discounted intrinsic and the put to 0; parity holds. -/
lemma bs_parity_zero_vol_pos (s k t r : ℝ) (hs : 0 < s) (hk : 0 < k) (htpos : 0 < t)
    (hApos : 0 < Real.log (s / k) + r * t) :
    (black_scholes_call s k t r 0).sub (black_scholes_put s k t r 0) =
      FVal.finite (s - k * Real.exp (-(r * t))) := by
  have h1 : t ≠ 0 := ne_of_gt htpos
  have h2 : k ≠ 0 := ne_of_gt hk
  have h3 : 0 < s / k := div_pos hs hk
  have h6 : (0:ℝ) ≤ t := le_of_lt htpos
  have hA0 : Real.log (s / k) + r * t ≠ 0 := ne_of_gt hApos
  simp only [black_scholes_call, black_scholes_put, if_neg h1]
  rw [FVal.sqrt_finite h6]
  rw [show FVal.mul (FVal.finite 0) (FVal.finite (Real.sqrt t)) = FVal.finite 0 by
    simp [FVal.mul]]
  rw [FVal.div_finite h2, FVal.ln_finite h3, FVal.add_finite]
  rw [show FVal.div (FVal.finite (Real.log (s / k) + (r + 0.5 * 0 ^ 2) * t)) (FVal.finite 0) =
    FVal.inf by simp [FVal.div, hA0, hApos]]
  rw [show FVal.sub FVal.inf (FVal.finite 0) = FVal.inf from rfl]
  rw [show FVal.neg FVal.inf = FVal.negInf from rfl]
  rw [norm_cdf_negInf, norm_cdf_inf]
  simp only [FVal.mul_finite, FVal.sub_finite, FVal.mul, FVal.sub, FVal.neg, FVal.add]
  norm_num
  ring

/-- Exact put-call parity for the coded functions, away from the one input
family the code cannot price (t > 0, sigma = 0, s exactly equal to the
discounted strike, where d1 = 0/0 = NaN). -/
lemma bs_parity_exact (s k t r sigma : ℝ) (hs : 0 < s) (hk : 0 < k) (ht : 0 ≤ t)
    (hσ : 0 ≤ sigma)
    (hnd : ¬(0 < t ∧ sigma = 0 ∧ s = k * Real.exp (-(r * t)))) :
    (black_scholes_call s k t r sigma).sub (black_scholes_put s k t r sigma) =
      FVal.finite (s - k * Real.exp (-(r * t))) := by
  rcases eq_or_lt_of_le ht with ht0 | htpos
  · subst ht0
    rw [show black_scholes_call s k 0 r sigma = FVal.finite (max (s - k) 0) by
      simp [black_scholes_call]]
    rw [show black_scholes_put s k 0 r sigma = FVal.finite (max (k - s) 0) by
      simp [black_scholes_put]]
    rw [FVal.sub_finite, mul_zero, neg_zero, Real.exp_zero]
    rcases le_total s k with h | h
    · rw [max_eq_right (sub_nonpos.mpr h), max_eq_left (sub_nonneg.mpr h)]
      norm_num
    · rw [max_eq_left (sub_nonneg.mpr h), max_eq_right (sub_nonpos.mpr h)]
      norm_num
  · have h1 : t ≠ 0 := ne_of_gt htpos
    have h2 : k ≠ 0 := ne_of_gt hk
    have h3 : 0 < s / k := div_pos hs hk
    have h6 : (0:ℝ) ≤ t := le_of_lt htpos
    rcases eq_or_lt_of_le hσ with hσ0 | hσpos
    · subst hσ0
      have hne : s ≠ k * Real.exp (-(r * t)) := fun h => hnd ⟨htpos, rfl, h⟩
      rcases lt_trichotomy (Real.log (s / k) + r * t) 0 with hAneg | hAzero | hApos
      · exact bs_parity_zero_vol_neg s k t r hs hk htpos hAneg
      · exfalso
        apply hne
        have hlog : Real.log (s / k) = -(r * t) := by linarith
        have h7 : s / k = Real.exp (-(r * t)) := by rw [← hlog, Real.exp_log h3]
        rw [(div_eq_iff h2).mp h7]
        ring
      · exact bs_parity_zero_vol_pos s k t r hs hk htpos hApos
    · have hsqt : (0:ℝ) < Real.sqrt t := Real.sqrt_pos.mpr htpos
      have hden : sigma * Real.sqrt t ≠ 0 := mul_ne_zero (ne_of_gt hσpos) (ne_of_gt hsqt)
      simp only [black_scholes_call, black_scholes_put, if_neg h1, FVal.sqrt_finite h6,
        FVal.mul_finite, FVal.div_finite h2, FVal.ln_finite h3, FVal.add_finite,
        FVal.div_finite hden, FVal.sub_finite, FVal.neg_finite, norm_cdf_finite,
        FVal.finite.injEq]
      simp only [neg_div, realErf_neg]
      ring

/-- At s = k = 100, t = 1, r = 0, sigma = 0 the unguarded d1 is 0/0: the
call price is NaN. -/
lemma bs_call_atm_nan : black_scholes_call 100 100 1 0 0 = FVal.nan := by
  norm_num [black_scholes_call, FVal.div, FVal.ln, FVal.add, FVal.mul, FVal.sqrt,
    FVal.sub, FVal.neg, norm_cdf, FVal.erf, FVal.fexp, Real.log_one, Real.sqrt_one]

/-- At s = k = 100, t = 1, r = 0, sigma = 0 the put price is NaN. -/
lemma bs_put_atm_nan : black_scholes_put 100 100 1 0 0 = FVal.nan := by
  norm_num [black_scholes_put, FVal.div, FVal.ln, FVal.add, FVal.mul, FVal.sqrt,
    FVal.sub, FVal.neg, norm_cdf, FVal.erf, FVal.fexp, Real.log_one, Real.sqrt_one]

/-- Negative spot is not rejected: the call is priced to NaN through ln of a
negative number. -/
lemma bs_call_neg_spot_nan (s k t r sigma : ℝ) (hs : s < 0) (hk : 0 < k) (ht : 0 < t) :
    black_scholes_call s k t r sigma = FVal.nan := by
  have h1 : t ≠ 0 := ne_of_gt ht
  have h2 : k ≠ 0 := ne_of_gt hk
  have h3 : s / k < 0 := div_neg_of_neg_of_pos hs hk
  have h4 : ¬(0 < s / k) := not_lt.mpr (le_of_lt h3)
  have h5 : s / k ≠ 0 := ne_of_lt h3
  have h6 : (0:ℝ) ≤ t := le_of_lt ht
  simp [black_scholes_call, FVal.div, FVal.ln, FVal.add, FVal.mul, FVal.sqrt,
    FVal.sub, FVal.neg, norm_cdf, FVal.erf, FVal.fexp, h1, h2, h4, h5, h6]

/-- Negative spot is not rejected: the put is priced to NaN. -/
lemma bs_put_neg_spot_nan (s k t r sigma : ℝ) (hs : s < 0) (hk : 0 < k) (ht : 0 < t) :
    black_scholes_put s k t r sigma = FVal.nan := by
  have h1 : t ≠ 0 := ne_of_gt ht
  have h2 : k ≠ 0 := ne_of_gt hk
  have h3 : s / k < 0 := div_neg_of_neg_of_pos hs hk
  have h4 : ¬(0 < s / k) := not_lt.mpr (le_of_lt h3)
  have h5 : s / k ≠ 0 := ne_of_lt h3
  have h6 : (0:ℝ) ≤ t := le_of_lt ht
  simp [black_scholes_put, FVal.div, FVal.ln, FVal.add, FVal.mul, FVal.sqrt,
    FVal.sub, FVal.neg, norm_cdf, FVal.erf, FVal.fexp, h1, h2, h4, h5, h6]

/-- C2: at the boundary point s = k·e^{-rt} with sigma = 0 (here s = k = 100,
t = 1, r = 0, so k·e^{-rt} = 100 = s exactly, also in f64), the claim and
the spec require the discounted intrinsic value max(s − k·e^{-rt}, 0) = 0,
but the code has no sigma == 0 special case: d1 = 0/0 = NaN and both the
call and the put price evaluate to NaN, not to a number. -/
theorem C2_zero_vol_boundary_nan :
    black_scholes_call 100 100 1 0 0 = FVal.nan ∧
    black_scholes_put 100 100 1 0 0 = FVal.nan ∧
    FVal.nan ≠ FVal.finite (max (100 - 100 * Real.exp (-(0 * 1))) 0) :=
  ⟨bs_call_atm_nan, bs_put_atm_nan, fun h => FVal.noConfusion h⟩

/-- C3 counterexample: an instrument with spot −100 (s ≤ 0) is not rejected
with an InvalidInstrument error — no such error exists in the code — it is
priced, and the price is NaN. -/
theorem C3_counterexample :
    compute_theoretical_prices [⟨"BadOption", -100, 100, 1, 1/20, 1/5, "call", 8⟩] =
      [FVal.nan] := by
  have h := bs_call_neg_spot_nan (-100) 100 1 (20⁻¹) (5⁻¹) (by norm_num) (by norm_num)
    (by norm_num)
  simp [compute_theoretical_prices, h]

/-- C3 amended: the pricing code performs no input validation: there is no
InvalidInstrument error and no abort.  A negative spot (s < 0) is priced
anyway — the unguarded ln(s/k) makes both the call and the put NaN — and
compute_theoretical_prices is total, returning one price per instrument. -/
theorem C3_amended (s k t r sigma : ℝ) (hs : s < 0) (hk : 0 < k) (ht : 0 < t) :
    black_scholes_call s k t r sigma = FVal.nan ∧
    black_scholes_put s k t r sigma = FVal.nan ∧
    ∀ od : List OptionData, (compute_theoretical_prices od).length = od.length :=
  ⟨bs_call_neg_spot_nan s k t r sigma hs hk ht, bs_put_neg_spot_nan s k t r sigma hs hk ht,
    fun od => by simp [compute_theoretical_prices]⟩

/-- C3 amended witness: concrete invalid instrument (spot −100). -/
theorem C3_amended_witness :
    black_scholes_call (-100) 100 1 (1/20) (1/5) = FVal.nan ∧
    black_scholes_put (-100) 100 1 (1/20) (1/5) = FVal.nan ∧
    ∀ od : List OptionData, (compute_theoretical_prices od).length = od.length :=
  C3_amended (-100) 100 1 (1/20) (1/5) (by norm_num) (by norm_num) (by norm_num)

/-- C6 counterexample: at the valid input s = k = 100, t = 1, r = 0,
sigma = 0 (sigma ≥ 0, t ≥ 0), call − put is NaN − NaN = NaN, which is not
within 1e-6 of s − k·e^{-rt} = 0: put-call parity fails there. -/
theorem C6_counterexample :
    ¬ FVal.isWithin ((black_scholes_call 100 100 1 0 0).sub (black_scholes_put 100 100 1 0 0))
      (100 - 100 * Real.exp (-(0 * 1))) (1 / 1000000) := by
  rw [bs_call_atm_nan, bs_put_atm_nan]
  rintro ⟨y, hy, _⟩
  exact FVal.noConfusion (show FVal.nan = FVal.finite y from hy)

/-- C6 amended: for every valid input (s > 0, k > 0, t ≥ 0, sigma ≥ 0) that
is not on the boundary family t > 0 ∧ sigma = 0 ∧ s = k·e^{-rt}, put-call
parity holds exactly, hence within the 1e-6 tolerance: call − put is the
finite number s − k·e^{-rt}. -/
theorem C6_amended (s k t r sigma : ℝ) (hs : 0 < s) (hk : 0 < k) (ht : 0 ≤ t)
    (hσ : 0 ≤ sigma)
    (hnd : ¬(0 < t ∧ sigma = 0 ∧ s = k * Real.exp (-(r * t)))) :
    FVal.isWithin ((black_scholes_call s k t r sigma).sub (black_scholes_put s k t r sigma))
      (s - k * Real.exp (-(r * t))) (1 / 1000000) :=
  ⟨s - k * Real.exp (-(r * t)), bs_parity_exact s k t r sigma hs hk ht hσ hnd, by norm_num⟩

/-- C6 amended witness: parity at the spec's example call (s = 100, k = 90,
t = 1/2, r = 1/20, sigma = 1/5). -/
theorem C6_amended_witness :
    FVal.isWithin ((black_scholes_call 100 90 (1/2) (1/20) (1/5)).sub
      (black_scholes_put 100 90 (1/2) (1/20) (1/5)))
      (100 - 90 * Real.exp (-(1/20 * (1/2)))) (1 / 1000000) :=
  C6_amended 100 90 (1/2) (1/20) (1/5) (by norm_num) (by norm_num) (by norm_num)
    (by norm_num) (by norm_num)
